import Mathlib

/-
Verification development for the "light-bulb prisoners" simulator
(src/main.cpp).  The C++ program is shallowly embedded: each class
becomes a structure, each mutating member function becomes a pure
function returning the updated state, machine integers become ℕ (with ℤ
used where a C++ `int32_t` expression can be negative), and the random
draw of `Prison::NextDay` becomes an explicit agent-id argument.
`std::ceil(std::log2 n)` is exact for the relevant `int32_t` range and is
modelled as `Nat.clog 2 n`.
-/

namespace Prisoners

/-- `enum class PrisonerClaim`. -/
inductive PrisonerClaim where
  | claim_nothing
  | claim_that_everyone_has_been_in_the_room
deriving DecidableEq, Repr

/-- Pointwise update of a function `ℕ → α`, modelling a write to
`std::vector` at an in-bounds index. -/
def updateFn {α : Type} (f : ℕ → α) (i : ℕ) (v : α) : ℕ → α :=
  fun j => if j = i then v else f j

/-- The mutable state of `Prison<Prisoner>`: day counter, the light
(`Light.is_on`, initialised off), the prisoner vector and the
ground-truth visit indicators. -/
structure PrisonState (σ : Type) where
  day_number : ℕ
  light_is_on : Bool
  prisoners : ℕ → σ
  prisoners_have_been_in_the_room_indicators : ℕ → Bool

/-- `Prison::Prison(n_prisoners)`: day 0, light off, indicators all
false, prisoner `i` built by the prisoner constructor `mk i`. -/
def Prison.init {σ : Type} (mk : ℕ → σ) : PrisonState σ :=
  { day_number := 0
    light_is_on := false
    prisoners := fun i => mk i
    prisoners_have_been_in_the_room_indicators := fun _ => false }

/-- `Prison::HaveAllPrisonersBeenInTheRoom`. -/
def HaveAllPrisonersBeenInTheRoom {σ : Type} (N : ℕ) (s : PrisonState σ) : Bool :=
  (List.range N).all fun i => s.prisoners_have_been_in_the_room_indicators i

/-- `Prison::NextDay`, with the uniformly drawn prisoner id `i` made an
explicit argument.  In source order: mark prisoner `i` as having been in
the room, let it take its action on the current day and light, then
increment the day counter; the claim is returned. -/
def NextDay {σ : Type} (act : σ → ℕ → Bool → σ × Bool × PrisonerClaim) (i : ℕ)
    (s : PrisonState σ) : PrisonerClaim × PrisonState σ :=
  let indicators := updateFn s.prisoners_have_been_in_the_room_indicators i true
  let r := act (s.prisoners i) s.day_number s.light_is_on
  (r.2.2,
    { day_number := s.day_number + 1
      light_is_on := r.2.1
      prisoners := updateFn s.prisoners i r.1
      prisoners_have_been_in_the_room_indicators := indicators })

/-- Outcome of `Prison::Run`: either the returned day count, or the
thrown `FalsePrisonerClaimException`. -/
inductive RunResult where
  | success (day : ℕ)
  | false_claim
deriving DecidableEq, Repr

/-- `Prison::Run`, fuelled: `none` means the loop has not terminated
within `fuel` iterations.  Each iteration calls `NextDay` (the drawn id
taken from the oracle `ids`, indexed by the current day); on a claim of
everyone-has-been-in-the-room it either returns the (already
incremented) day counter or throws. -/
def RunAux {σ : Type} (N : ℕ) (act : σ → ℕ → Bool → σ × Bool × PrisonerClaim)
    (ids : ℕ → ℕ) : ℕ → PrisonState σ → Option RunResult
  | 0, _ => none
  | fuel + 1, s =>
    let r := NextDay act (ids s.day_number) s
    if r.1 = PrisonerClaim.claim_that_everyone_has_been_in_the_room then
      if HaveAllPrisonersBeenInTheRoom N r.2 then some (RunResult.success r.2.day_number)
      else some RunResult.false_claim
    else RunAux N act ids fuel r.2

/-- States reachable from construction by scheduler steps whose drawn
ids are in `[0, N)`. -/
inductive Reachable {σ : Type} (act : σ → ℕ → Bool → σ × Bool × PrisonerClaim)
    (mk : ℕ → σ) (N : ℕ) : PrisonState σ → Prop
  | init : Reachable act mk N (Prison.init mk)
  | step {s : PrisonState σ} (i : ℕ) (hi : i < N) (hs : Reachable act mk N s) :
      Reachable act mk N (NextDay act i s).2

/-! ## DedicatedCounterPrisoner -/

/-- Per-agent state of `DedicatedCounterPrisoner` (fields of the C++
object, the `PrisonerBase` part included). -/
structure DedicatedCounterPrisoner where
  prisoner_id : ℕ
  n_prisoners : ℕ
  has_turned_on_the_light : Bool
  times_turned_off_the_light : ℕ
deriving DecidableEq, Repr

/-- `DedicatedCounterPrisoner` constructor (inherited from
`PrisonerBase`; flag false, counter zero). -/
def DedicatedCounterPrisoner.init (prisoner_id n_prisoners : ℕ) : DedicatedCounterPrisoner :=
  { prisoner_id, n_prisoners
    has_turned_on_the_light := false
    times_turned_off_the_light := 0 }

/-- `DedicatedCounterPrisoner::TakeAction`.  The comparison
`times_turned_off_the_light == n_prisoners - 1` is `int32_t` arithmetic
and is modelled in ℤ. -/
def DedicatedCounterPrisoner.TakeAction (p : DedicatedCounterPrisoner) (_day : ℕ)
    (light : Bool) : DedicatedCounterPrisoner × Bool × PrisonerClaim :=
  if p.prisoner_id = 0 then
    let p1 := if light then
        { p with times_turned_off_the_light := p.times_turned_off_the_light + 1 }
      else p
    let light1 := if light then false else light
    if (p1.times_turned_off_the_light : ℤ) = (p1.n_prisoners : ℤ) - 1 then
      (p1, light1, PrisonerClaim.claim_that_everyone_has_been_in_the_room)
    else
      (p1, light1, PrisonerClaim.claim_nothing)
  else
    if p.has_turned_on_the_light = false ∧ light = false then
      ({ p with has_turned_on_the_light := true }, true, PrisonerClaim.claim_nothing)
    else
      (p, light, PrisonerClaim.claim_nothing)

/-! ## TokenPrisoner -/

/-- Structural search for the smallest exponent `k` (starting from the
given `k`) with `number ≤ 2 ^ k`; the fuel makes the recursion
structural so that proofs can evaluate it. -/
def ceilLog2From (number : ℕ) : ℕ → ℕ → ℕ
  | 0, k => k
  | fuel + 1, k => if number ≤ 2 ^ k then k else ceilLog2From number fuel (k + 1)

/-- `TokenPrisoner::GetClosestNotSmallerPowerOf2`, i.e.
`std::ceil(std::log2 number)`, which over the program's `int32_t` range
is exactly the smallest `k` with `number ≤ 2 ^ k`; the lemma
`getClosest_eq_clog` below identifies it with `Nat.clog 2 number`. -/
def GetClosestNotSmallerPowerOf2 (number : ℕ) : ℕ :=
  ceilLog2From number (number + 1) 0

/-- Per-agent state of `TokenPrisoner`. -/
structure TokenPrisoner where
  prisoner_id : ℕ
  n_prisoners : ℕ
  n_tokens : ℕ
deriving DecidableEq, Repr

/-- `TokenPrisoner::TokenPrisoner`: the first
`(1 << k) - n_prisoners` prisoners (an `int32_t` quantity, modelled in
ℤ) get 2 tokens, the rest 1. -/
def TokenPrisoner.init (prisoner_id n_prisoners : ℕ) : TokenPrisoner :=
  let n_prisoners_with_2_tokens : ℤ :=
    2 ^ GetClosestNotSmallerPowerOf2 n_prisoners - (n_prisoners : ℤ)
  { prisoner_id, n_prisoners
    n_tokens := if (prisoner_id : ℤ) < n_prisoners_with_2_tokens then 2 else 1 }

/-- `TokenPrisoner::GetStageIndex`, under Lean's total `/` and `%`
(`x / 0 = 0`, `x % 0 = x`).  The C++ original performs the same
computation with `int32_t` division, which is undefined when a divisor
is zero; `GetStageIndexChecked` below tracks that side condition. -/
def GetStageIndex (n_prisoners day_number : ℕ) : ℕ :=
  let first_cycle_interval := n_prisoners * 7
  let next_cycles_interval := n_prisoners * 3
  let n_stages := GetClosestNotSmallerPowerOf2 n_prisoners
  if day_number < n_stages * first_cycle_interval then
    day_number / first_cycle_interval
  else
    let tail := day_number - n_stages * first_cycle_interval
    tail / next_cycles_interval % n_stages

/-- `TokenPrisoner::GetStageIndex` with every division and modulo
guarded: `none` exactly when some divisor it executes is zero (undefined
behaviour in the C++ original). -/
def GetStageIndexChecked (n_prisoners day_number : ℕ) : Option ℕ :=
  let first_cycle_interval := n_prisoners * 7
  let next_cycles_interval := n_prisoners * 3
  let n_stages := GetClosestNotSmallerPowerOf2 n_prisoners
  if day_number < n_stages * first_cycle_interval then
    if first_cycle_interval = 0 then none
    else some (day_number / first_cycle_interval)
  else
    let tail := day_number - n_stages * first_cycle_interval
    if next_cycles_interval = 0 ∨ n_stages = 0 then none
    else some (tail / next_cycles_interval % n_stages)

/-- `TokenPrisoner::IsLastDayOfTheStage`. -/
def IsLastDayOfTheStage (n_prisoners day_number : ℕ) : Bool :=
  GetStageIndex n_prisoners day_number != GetStageIndex n_prisoners (day_number + 1)

/-- `TokenPrisoner::MaybeTurnOffLight`: returns the updated prisoner and
light. -/
def TokenPrisoner.MaybeTurnOffLight (p : TokenPrisoner) (day_number : ℕ)
    (light : Bool) : TokenPrisoner × Bool :=
  if light = false then
    (p, light)
  else
    let stage_index := GetStageIndex p.n_prisoners day_number
    let exchange_rate := 1 <<< stage_index
    let have_matching_bit : Bool := p.n_tokens &&& exchange_rate != 0
    if IsLastDayOfTheStage p.n_prisoners day_number || have_matching_bit then
      ({ p with n_tokens := p.n_tokens + exchange_rate }, false)
    else
      (p, light)

/-- `TokenPrisoner::MaybeTurnOnLight`: returns the updated prisoner and
light.  The guard `n_tokens &&& next_day_exchange_rate != 0` makes the
ℕ subtraction agree with the C++ `int32_t` subtraction. -/
def TokenPrisoner.MaybeTurnOnLight (p : TokenPrisoner) (day_number : ℕ)
    (light : Bool) : TokenPrisoner × Bool :=
  if light = true then
    (p, light)
  else
    let next_day_stage_index := GetStageIndex p.n_prisoners (day_number + 1)
    let next_day_exchange_rate := 1 <<< next_day_stage_index
    let have_matching_bit : Bool := p.n_tokens &&& next_day_exchange_rate != 0
    if have_matching_bit then
      ({ p with n_tokens := p.n_tokens - next_day_exchange_rate }, true)
    else
      (p, light)

/-- `TokenPrisoner::ShouldClaimThatEveryoneHasBeenInTheRoom`. -/
def TokenPrisoner.ShouldClaimThatEveryoneHasBeenInTheRoom (p : TokenPrisoner) : Prop :=
  p.n_tokens = 1 <<< GetClosestNotSmallerPowerOf2 p.n_prisoners

instance (p : TokenPrisoner) : Decidable p.ShouldClaimThatEveryoneHasBeenInTheRoom :=
  inferInstanceAs (Decidable (_ = _))

/-- `TokenPrisoner::TakeAction`. -/
def TokenPrisoner.TakeAction (p : TokenPrisoner) (day_number : ℕ)
    (light : Bool) : TokenPrisoner × Bool × PrisonerClaim :=
  let r1 := p.MaybeTurnOffLight day_number light
  let r2 := r1.1.MaybeTurnOnLight day_number r1.2
  if r2.1.ShouldClaimThatEveryoneHasBeenInTheRoom then
    (r2.1, r2.2, PrisonerClaim.claim_that_everyone_has_been_in_the_room)
  else
    (r2.1, r2.2, PrisonerClaim.claim_nothing)

/-! ## Spec-side models (for refinement comparison)

These definitions are written from the specification's words (§4.3 of
the spec), not from the source, and are compared with the source-derived
definitions above. -/

/-- Spec §4.3 stage schedule: first cycle `day / (7*N)` while
`day < k*7*N`; afterwards `((day - k*7*N) / (3*N)) mod k`, with
`k = ceil(log2 N)`. -/
def stageSpec (N day : ℕ) : ℕ :=
  let k := Nat.clog 2 N
  if day < k * (7 * N) then
    day / (7 * N)
  else
    (day - k * (7 * N)) / (3 * N) % k

/-- Spec §4.3: `last_day_of_stage(day)` iff the stage index changes on
the next day. -/
def lastDaySpec (N day : ℕ) : Prop :=
  stageSpec N day ≠ stageSpec N (day + 1)

instance (N day : ℕ) : Decidable (lastDaySpec N day) :=
  inferInstanceAs (Decidable (_ ≠ _))

/-- Spec §4.3 per-visit action, in the spec's order: `maybe_turn_off`
with `rate = 2^stage(day)` (absorb if the rate bit is set or the stage
is ending), then `maybe_turn_on` with `next_rate = 2^stage(day+1)`
(offer if the next-rate bit is set), then claim iff `tokens = 2^k`. -/
def takeActionSpec (p : TokenPrisoner) (day : ℕ) (light : Bool) :
    TokenPrisoner × Bool × PrisonerClaim :=
  let N := p.n_prisoners
  let k := Nat.clog 2 N
  let step1 : TokenPrisoner × Bool :=
    if light = true then
      let rate := 2 ^ stageSpec N day
      if p.n_tokens &&& rate ≠ 0 ∨ lastDaySpec N day then
        ({ p with n_tokens := p.n_tokens + rate }, false)
      else
        (p, light)
    else
      (p, light)
  let step2 : TokenPrisoner × Bool :=
    if step1.2 = false then
      let next_rate := 2 ^ stageSpec N (day + 1)
      if step1.1.n_tokens &&& next_rate ≠ 0 then
        ({ step1.1 with n_tokens := step1.1.n_tokens - next_rate }, true)
      else
        (step1.1, step1.2)
    else
      (step1.1, step1.2)
  (step2.1, step2.2,
    if step2.1.n_tokens = 2 ^ k then PrisonerClaim.claim_that_everyone_has_been_in_the_room
    else PrisonerClaim.claim_nothing)

/-! ## Derived definitions used by the statements -/

/-- `Prison<TokenPrisoner>::Prison(N)`. -/
def tokenInit (N : ℕ) : PrisonState TokenPrisoner :=
  Prison.init fun i => TokenPrisoner.init i N

/-- `Prison<DedicatedCounterPrisoner>::Prison(N)`. -/
def counterInit (N : ℕ) : PrisonState DedicatedCounterPrisoner :=
  Prison.init fun i => DedicatedCounterPrisoner.init i N

/-- Sum of all agents' token counts. -/
def tokensSum (N : ℕ) (s : PrisonState TokenPrisoner) : ℕ :=
  ∑ i ∈ Finset.range N, (s.prisoners i).n_tokens

/-- Token mass including the unit currently offered on the light (of
weight `2^stage(current day)`) when the light is on. -/
def lightAdjustedTokensSum (N : ℕ) (s : PrisonState TokenPrisoner) : ℕ :=
  tokensSum N s + (if s.light_is_on then 2 ^ GetStageIndex N s.day_number else 0)

/-- Number of non-leader agents whose one-shot signal flag is set. -/
def nSignaled (N : ℕ) (s : PrisonState DedicatedCounterPrisoner) : ℕ :=
  ∑ i ∈ Finset.range N,
    (if 0 < i ∧ (s.prisoners i).has_turned_on_the_light = true then 1 else 0)

/-- State after `j` scheduler steps from `s` (ids drawn from the oracle
`ids` by day number). -/
def iterState {σ : Type} (act : σ → ℕ → Bool → σ × Bool × PrisonerClaim)
    (ids : ℕ → ℕ) : ℕ → PrisonState σ → PrisonState σ
  | 0, s => s
  | j + 1, s => iterState act ids j (NextDay act (ids s.day_number) s).2

/-- The claim produced by the `(j+1)`-st scheduler step from `s`. -/
def claimAt {σ : Type} (act : σ → ℕ → Bool → σ × Bool × PrisonerClaim)
    (ids : ℕ → ℕ) (j : ℕ) (s : PrisonState σ) : PrisonerClaim :=
  (NextDay act (ids (iterState act ids j s).day_number) (iterState act ids j s)).1

/-- The `(j+1)`-st scheduler step from `s` is the first to produce the
everyone-has-been-in-the-room claim. -/
def FirstClaimAt {σ : Type} (act : σ → ℕ → Bool → σ × Bool × PrisonerClaim)
    (ids : ℕ → ℕ) (s : PrisonState σ) (j : ℕ) : Prop :=
  (∀ m, m < j → claimAt act ids m s = PrisonerClaim.claim_nothing) ∧
  claimAt act ids j s = PrisonerClaim.claim_that_everyone_has_been_in_the_room

/-! ## Basic correspondence lemmas -/

lemma ceilLog2From_le_pow (n : ℕ) :
    ∀ fuel k, n ≤ 2 ^ (k + fuel) → n ≤ 2 ^ ceilLog2From n fuel k := by
  intro fuel
  induction fuel with
  | zero => intro k h; simpa [ceilLog2From] using h
  | succ m ih =>
    intro k h
    rw [ceilLog2From]
    split
    · assumption
    · have he : k + (m + 1) = k + 1 + m := by omega
      rw [he] at h
      exact ih (k + 1) h

lemma ceilLog2From_min (n : ℕ) :
    ∀ fuel k, (∀ j, j < k → 2 ^ j < n) → ∀ j, j < ceilLog2From n fuel k → 2 ^ j < n := by
  intro fuel
  induction fuel with
  | zero => intro k hk; simpa [ceilLog2From] using hk
  | succ m ih =>
    intro k hk
    rw [ceilLog2From]
    split
    · exact hk
    · refine ih (k + 1) fun j hj => ?_
      rcases Nat.lt_succ_iff_lt_or_eq.mp hj with h | h
      · exact hk j h
      · subst h; omega

/-- The source's ceiling log is at least covering: `n ≤ 2 ^ k`. -/
lemma le_pow_getClosest (n : ℕ) : n ≤ 2 ^ GetClosestNotSmallerPowerOf2 n := by
  refine ceilLog2From_le_pow n (n + 1) 0 ?_
  calc n ≤ 2 ^ n := Nat.le_of_lt (Nat.lt_two_pow n)
  _ ≤ 2 ^ (0 + (n + 1)) := Nat.pow_le_pow_right (by norm_num) (by omega)

/-- The source's ceiling log is minimal: below it, powers of two are
still short of `n`. -/
lemma pow_lt_of_lt_getClosest {n j : ℕ} (h : j < GetClosestNotSmallerPowerOf2 n) :
    2 ^ j < n :=
  ceilLog2From_min n (n + 1) 0 (by omega) j h

/-- The source's `GetClosestNotSmallerPowerOf2` is `Nat.clog 2`, the
ceiling logarithm the spec describes. -/
lemma getClosest_eq_clog (n : ℕ) : GetClosestNotSmallerPowerOf2 n = Nat.clog 2 n := by
  apply Nat.le_antisymm
  · by_contra hlt
    push_neg at hlt
    exact absurd (Nat.le_pow_clog one_lt_two n) (Nat.not_le.mpr (pow_lt_of_lt_getClosest hlt))
  · exact (Nat.le_pow_iff_clog_le one_lt_two).mp (le_pow_getClosest n)

/-- For `n ≥ 1` the covering power of two is under `2 * n` (so the
number of prisoners that start with two tokens is at most `n`). -/
lemma pow_getClosest_lt_two_mul {n : ℕ} (hn : 1 ≤ n) :
    2 ^ GetClosestNotSmallerPowerOf2 n < 2 * n := by
  rcases Nat.eq_zero_or_pos (GetClosestNotSmallerPowerOf2 n) with h | h
  · rw [h]; omega
  · have := pow_lt_of_lt_getClosest (n := n) (j := GetClosestNotSmallerPowerOf2 n - 1) (by omega)
    have hpow : 2 ^ GetClosestNotSmallerPowerOf2 n
        = 2 * 2 ^ (GetClosestNotSmallerPowerOf2 n - 1) := by
      rcases Nat.exists_eq_add_of_le h with ⟨m, hm⟩
      rw [hm]
      simp [Nat.pow_succ, Nat.add_comm 1 m, Nat.mul_comm]
    omega

/-- The source stage computation agrees with the spec's formula (both
read under Lean's total division). -/
lemma stage_eq_spec (N day : ℕ) : GetStageIndex N day = stageSpec N day := by
  simp only [GetStageIndex, stageSpec, getClosest_eq_clog]
  rw [Nat.mul_comm N 7, Nat.mul_comm N 3]

/-- The source last-day test agrees with the spec's. -/
lemma lastDay_eq_spec (N day : ℕ) :
    IsLastDayOfTheStage N day = true ↔ lastDaySpec N day := by
  simp only [IsLastDayOfTheStage, lastDaySpec, bne_iff_ne, ne_eq, stage_eq_spec]

/-! ## Shape lemmas for the token protocol's light operations -/

lemma land_pow_ne_zero_le {t s : ℕ} (h : t &&& 2 ^ s ≠ 0) : 2 ^ s ≤ t := by
  by_contra hlt
  push_neg at hlt
  rw [Nat.and_two_pow, Nat.testBit_eq_false_of_lt hlt] at h
  simp at h

lemma maybeTurnOffLight_off (p : TokenPrisoner) (d : ℕ) :
    p.MaybeTurnOffLight d false = (p, false) := by
  simp [TokenPrisoner.MaybeTurnOffLight]

lemma maybeTurnOffLight_on_absorb (p : TokenPrisoner) (d : ℕ)
    (h : (IsLastDayOfTheStage p.n_prisoners d
        || (p.n_tokens &&& 1 <<< GetStageIndex p.n_prisoners d != 0)) = true) :
    p.MaybeTurnOffLight d true
      = ({ p with n_tokens := p.n_tokens + 2 ^ GetStageIndex p.n_prisoners d }, false) := by
  simp only [TokenPrisoner.MaybeTurnOffLight, Nat.shiftLeft_eq, Nat.one_mul] at h ⊢
  simp [h]

lemma maybeTurnOffLight_on_skip (p : TokenPrisoner) (d : ℕ)
    (h : (IsLastDayOfTheStage p.n_prisoners d
        || (p.n_tokens &&& 1 <<< GetStageIndex p.n_prisoners d != 0)) = false) :
    p.MaybeTurnOffLight d true = (p, true) := by
  simp only [TokenPrisoner.MaybeTurnOffLight, Nat.shiftLeft_eq, Nat.one_mul] at h ⊢
  simp [h]

lemma maybeTurnOnLight_on (p : TokenPrisoner) (d : ℕ) :
    p.MaybeTurnOnLight d true = (p, true) := by
  simp [TokenPrisoner.MaybeTurnOnLight]

lemma maybeTurnOnLight_off_offer (p : TokenPrisoner) (d : ℕ)
    (h : (p.n_tokens &&& 1 <<< GetStageIndex p.n_prisoners (d + 1) != 0) = true) :
    p.MaybeTurnOnLight d false
      = ({ p with n_tokens := p.n_tokens - 2 ^ GetStageIndex p.n_prisoners (d + 1) }, true) := by
  simp only [TokenPrisoner.MaybeTurnOnLight, Nat.shiftLeft_eq, Nat.one_mul] at h ⊢
  simp [h]

lemma maybeTurnOnLight_off_skip (p : TokenPrisoner) (d : ℕ)
    (h : (p.n_tokens &&& 1 <<< GetStageIndex p.n_prisoners (d + 1) != 0) = false) :
    p.MaybeTurnOnLight d false = (p, false) := by
  simp only [TokenPrisoner.MaybeTurnOnLight, Nat.shiftLeft_eq, Nat.one_mul] at h ⊢
  simp [h]

lemma takeAction_fields (p : TokenPrisoner) (d : ℕ) (l : Bool) :
    (p.TakeAction d l).1 = ((p.MaybeTurnOffLight d l).1.MaybeTurnOnLight d (p.MaybeTurnOffLight d l).2).1 ∧
    (p.TakeAction d l).2.1 = ((p.MaybeTurnOffLight d l).1.MaybeTurnOnLight d (p.MaybeTurnOffLight d l).2).2 := by
  constructor <;>
    simp only [TokenPrisoner.TakeAction] <;> split <;> rfl

/-! ## Sum bookkeeping -/

lemma sum_range_updateFn {α : Type} (gg : ℕ → α → ℕ) (f : ℕ → α) (i : ℕ) (v : α)
    {N : ℕ} (hi : i < N) :
    (∑ j ∈ Finset.range N, gg j (updateFn f i v j)) + gg i (f i)
      = (∑ j ∈ Finset.range N, gg j (f j)) + gg i v := by
  have hmem : i ∈ Finset.range N := Finset.mem_range.mpr hi
  rw [← Finset.add_sum_erase _ (fun j => gg j (updateFn f i v j)) hmem,
    ← Finset.add_sum_erase _ (fun j => gg j (f j)) hmem]
  have h1 : updateFn f i v i = v := by simp [updateFn]
  have h2 : ∀ j ∈ (Finset.range N).erase i, gg j (updateFn f i v j) = gg j (f j) := by
    intro j hj
    have hne : j ≠ i := (Finset.mem_erase.mp hj).1
    simp [updateFn, hne]
  rw [Finset.sum_congr rfl h2, h1]
  ring

lemma term_le_tokensSum {N i : ℕ} (hi : i < N) (s : PrisonState TokenPrisoner) :
    (s.prisoners i).n_tokens ≤ tokensSum N s :=
  Finset.single_le_sum (f := fun j => (s.prisoners j).n_tokens)
    (fun _ _ => Nat.zero_le _) (Finset.mem_range.mpr hi)

lemma sum_range_if_lt (e : ℕ) :
    ∀ N, e ≤ N → (∑ i ∈ Finset.range N, (if i < e then 2 else 1)) = N + e := by
  intro N
  induction N with
  | zero =>
    intro he
    have he0 : e = 0 := by omega
    subst he0
    simp
  | succ m ih =>
    intro he
    rcases le_or_lt e m with h | h
    · rw [Finset.sum_range_succ, ih h, if_neg (by omega)]
      omega
    · have hem : e = m + 1 := by omega
      subst hem
      have hall : ∀ i ∈ Finset.range (m + 1), (if i < m + 1 then 2 else 1) = 2 := by
        intro i hin
        exact if_pos (Finset.mem_range.mp hin)
      rw [Finset.sum_congr rfl hall, Finset.sum_const, Finset.card_range, smul_eq_mul]
      omega

/-- The constructed token allocation: prisoner `i` holds
`2` tokens iff `i < 2^k - N`. -/
lemma init_n_tokens (N i : ℕ) :
    (TokenPrisoner.init i N).n_tokens
      = if i < 2 ^ GetClosestNotSmallerPowerOf2 N - N then 2 else 1 := by
  have hle : N ≤ 2 ^ GetClosestNotSmallerPowerOf2 N := le_pow_getClosest N
  have hc : ((2 ^ GetClosestNotSmallerPowerOf2 N : ℕ) : ℤ)
      = (2 : ℤ) ^ GetClosestNotSmallerPowerOf2 N := by push_cast; ring
  have hiff : ((i : ℤ) < 2 ^ GetClosestNotSmallerPowerOf2 N - (N : ℤ))
      ↔ i < 2 ^ GetClosestNotSmallerPowerOf2 N - N := by
    rw [← hc]; omega
  simp only [TokenPrisoner.init, hiff]

/-- At construction the token mass over the agents is exactly `2^k`. -/
lemma tokensSum_init (N : ℕ) (hN : 1 ≤ N) :
    tokensSum N (tokenInit N) = 2 ^ GetClosestNotSmallerPowerOf2 N := by
  have hle : N ≤ 2 ^ GetClosestNotSmallerPowerOf2 N := le_pow_getClosest N
  have hlt : 2 ^ GetClosestNotSmallerPowerOf2 N < 2 * N := pow_getClosest_lt_two_mul hN
  have hbody : ∀ j ∈ Finset.range N,
      ((tokenInit N).prisoners j).n_tokens
        = if j < 2 ^ GetClosestNotSmallerPowerOf2 N - N then 2 else 1 := by
    intro j _
    exact init_n_tokens N j
  rw [tokensSum, Finset.sum_congr rfl hbody,
    sum_range_if_lt (2 ^ GetClosestNotSmallerPowerOf2 N - N) N (by omega)]
  omega

/-! ## Token-mass conservation -/

lemma maybeTurnOffLight_params (p : TokenPrisoner) (d : ℕ) (l : Bool) :
    (p.MaybeTurnOffLight d l).1.n_prisoners = p.n_prisoners ∧
    (p.MaybeTurnOffLight d l).1.prisoner_id = p.prisoner_id := by
  simp only [TokenPrisoner.MaybeTurnOffLight]
  split
  · exact ⟨rfl, rfl⟩
  · split <;> exact ⟨rfl, rfl⟩

lemma maybeTurnOnLight_params (p : TokenPrisoner) (d : ℕ) (l : Bool) :
    (p.MaybeTurnOnLight d l).1.n_prisoners = p.n_prisoners ∧
    (p.MaybeTurnOnLight d l).1.prisoner_id = p.prisoner_id := by
  simp only [TokenPrisoner.MaybeTurnOnLight]
  split
  · exact ⟨rfl, rfl⟩
  · split <;> exact ⟨rfl, rfl⟩

lemma takeAction_params (p : TokenPrisoner) (d : ℕ) (l : Bool) :
    (p.TakeAction d l).1.n_prisoners = p.n_prisoners ∧
    (p.TakeAction d l).1.prisoner_id = p.prisoner_id := by
  rw [(takeAction_fields p d l).1]
  obtain ⟨ha, hb⟩ := maybeTurnOnLight_params (p.MaybeTurnOffLight d l).1 d (p.MaybeTurnOffLight d l).2
  obtain ⟨hc, hd⟩ := maybeTurnOffLight_params p d l
  exact ⟨ha.trans hc, hb.trans hd⟩

/-- Single-visit conservation: the visiting agent's tokens plus the
weight pending on the light (`2^stage(day)` on entry, `2^stage(day+1)`
on exit, since the light read tomorrow is offered at tomorrow's rate)
are unchanged by `TakeAction`. -/
lemma takeAction_conservation (p : TokenPrisoner) (d : ℕ) (l : Bool) :
    (p.TakeAction d l).1.n_tokens
        + (if (p.TakeAction d l).2.1 then 2 ^ GetStageIndex p.n_prisoners (d + 1) else 0)
      = p.n_tokens + (if l then 2 ^ GetStageIndex p.n_prisoners d else 0) := by
  obtain ⟨h1, h2⟩ := takeAction_fields p d l
  rw [h1, h2]
  cases l with
  | false =>
    rw [maybeTurnOffLight_off]
    cases hb : (p.n_tokens &&& 1 <<< GetStageIndex p.n_prisoners (d + 1) != 0) with
    | false =>
      rw [maybeTurnOnLight_off_skip p d hb]
      simp
    | true =>
      rw [maybeTurnOnLight_off_offer p d hb]
      have hne : p.n_tokens &&& 2 ^ GetStageIndex p.n_prisoners (d + 1) ≠ 0 := by
        rw [bne_iff_ne] at hb
        simpa [Nat.shiftLeft_eq] using hb
      have hle := land_pow_ne_zero_le hne
      simp only [if_true, if_neg Bool.false_ne_true]
      omega
  | true =>
    cases habs : (IsLastDayOfTheStage p.n_prisoners d
        || (p.n_tokens &&& 1 <<< GetStageIndex p.n_prisoners d != 0)) with
    | true =>
      rw [maybeTurnOffLight_on_absorb p d habs]
      cases hb2 : ((p.n_tokens + 2 ^ GetStageIndex p.n_prisoners d)
          &&& 1 <<< GetStageIndex p.n_prisoners (d + 1) != 0) with
      | false =>
        rw [maybeTurnOnLight_off_skip _ d hb2]
        simp
      | true =>
        rw [maybeTurnOnLight_off_offer _ d hb2]
        have hne : (p.n_tokens + 2 ^ GetStageIndex p.n_prisoners d)
            &&& 2 ^ GetStageIndex p.n_prisoners (d + 1) ≠ 0 := by
          rw [bne_iff_ne] at hb2
          simpa [Nat.shiftLeft_eq] using hb2
        have hle := land_pow_ne_zero_le hne
        simp only [if_true]
        omega
    | false =>
      rw [maybeTurnOffLight_on_skip p d habs, maybeTurnOnLight_on]
      have hld : IsLastDayOfTheStage p.n_prisoners d = false :=
        (Bool.or_eq_false_iff.mp habs).1
      have hstage : GetStageIndex p.n_prisoners d = GetStageIndex p.n_prisoners (d + 1) := by
        simpa [IsLastDayOfTheStage, bne_eq_false_iff_eq] using hld
      simp [hstage]

/-- The light-adjusted token mass is unchanged by one scheduler step. -/
lemma lightAdjustedSum_step {N i : ℕ} (hi : i < N) (s : PrisonState TokenPrisoner)
    (hp : (s.prisoners i).n_prisoners = N) :
    lightAdjustedTokensSum N (NextDay TokenPrisoner.TakeAction i s).2
      = lightAdjustedTokensSum N s := by
  have hprs : (NextDay TokenPrisoner.TakeAction i s).2.prisoners
      = updateFn s.prisoners i ((s.prisoners i).TakeAction s.day_number s.light_is_on).1 := rfl
  have hday : (NextDay TokenPrisoner.TakeAction i s).2.day_number = s.day_number + 1 := rfl
  have hlight : (NextDay TokenPrisoner.TakeAction i s).2.light_is_on
      = ((s.prisoners i).TakeAction s.day_number s.light_is_on).2.1 := rfl
  have hS : tokensSum N (NextDay TokenPrisoner.TakeAction i s).2 + (s.prisoners i).n_tokens
      = tokensSum N s + ((s.prisoners i).TakeAction s.day_number s.light_is_on).1.n_tokens := by
    have h := sum_range_updateFn (fun _ q => q.n_tokens) s.prisoners i
      ((s.prisoners i).TakeAction s.day_number s.light_is_on).1 hi
    simpa [tokensSum, hprs] using h
  have hcons := takeAction_conservation (s.prisoners i) s.day_number s.light_is_on
  rw [hp] at hcons
  have hterm : (s.prisoners i).n_tokens ≤ tokensSum N s := term_le_tokensSum hi s
  rw [lightAdjustedTokensSum, lightAdjustedTokensSum, hday, hlight]
  cases hl : s.light_is_on with
  | false =>
    rw [hl] at hS hcons
    cases hl2 : ((s.prisoners i).TakeAction s.day_number false).2.1 with
    | false => rw [hl2] at hcons; simp at hcons ⊢; omega
    | true => rw [hl2] at hcons; simp at hcons ⊢; omega
  | true =>
    rw [hl] at hS hcons
    cases hl2 : ((s.prisoners i).TakeAction s.day_number true).2.1 with
    | false => rw [hl2] at hcons; simp at hcons ⊢; omega
    | true => rw [hl2] at hcons; simp at hcons ⊢; omega

/-- Run invariant for the token protocol: agents keep their `N`, and
the light-adjusted token mass stays `2^k`. -/
lemma tokenMassInvariant {N : ℕ} (hN : 1 ≤ N) {s : PrisonState TokenPrisoner}
    (hs : Reachable TokenPrisoner.TakeAction (fun i => TokenPrisoner.init i N) N s) :
    (∀ i, i < N → (s.prisoners i).n_prisoners = N) ∧
    lightAdjustedTokensSum N s = 2 ^ GetClosestNotSmallerPowerOf2 N := by
  induction hs with
  | init =>
    refine ⟨fun i _ => rfl, ?_⟩
    have : (Prison.init fun i => TokenPrisoner.init i N) = tokenInit N := rfl
    rw [this, lightAdjustedTokensSum]
    simp only [tokenInit, Prison.init, if_neg Bool.false_ne_true]
    rw [Nat.add_zero]
    exact tokensSum_init N hN
  | @step s i hi hs ih =>
    obtain ⟨ihp, ihsum⟩ := ih
    refine ⟨?_, ?_⟩
    · intro j hj
      have hprs : (NextDay TokenPrisoner.TakeAction i s).2.prisoners
          = updateFn s.prisoners i ((s.prisoners i).TakeAction s.day_number s.light_is_on).1 := rfl
      rw [hprs]
      by_cases hji : j = i
      · subst hji
        have hupd : updateFn s.prisoners j ((s.prisoners j).TakeAction s.day_number s.light_is_on).1 j
            = ((s.prisoners j).TakeAction s.day_number s.light_is_on).1 := by
          simp [updateFn]
        rw [hupd, (takeAction_params (s.prisoners j) s.day_number s.light_is_on).1]
        exact ihp j hj
      · have hupd : updateFn s.prisoners i ((s.prisoners i).TakeAction s.day_number s.light_is_on).1 j
            = s.prisoners j := by
          simp [updateFn, hji]
        rw [hupd]
        exact ihp j hj
    · rw [lightAdjustedSum_step hi s (ihp i hi)]
      exact ihsum

/-! ## Counter-protocol lemmas -/

lemma counterAction_params (p : DedicatedCounterPrisoner) (d : ℕ) (l : Bool) :
    (p.TakeAction d l).1.prisoner_id = p.prisoner_id ∧
    (p.TakeAction d l).1.n_prisoners = p.n_prisoners := by
  simp only [DedicatedCounterPrisoner.TakeAction]
  split_ifs <;> simp

lemma counterAction_leader (p : DedicatedCounterPrisoner) (d : ℕ) (l : Bool)
    (h : p.prisoner_id = 0) :
    (p.TakeAction d l).1.times_turned_off_the_light
        = p.times_turned_off_the_light + (if l then 1 else 0) ∧
    (p.TakeAction d l).1.has_turned_on_the_light = p.has_turned_on_the_light ∧
    (p.TakeAction d l).2.1 = false ∧
    ((p.TakeAction d l).2.2 = PrisonerClaim.claim_that_everyone_has_been_in_the_room ↔
      ((p.times_turned_off_the_light : ℤ) + (if l then 1 else 0)
        = (p.n_prisoners : ℤ) - 1)) := by
  simp only [DedicatedCounterPrisoner.TakeAction]
  rw [if_pos h]
  cases l <;> split_ifs <;> simp_all

lemma counterAction_nonleader (p : DedicatedCounterPrisoner) (d : ℕ) (l : Bool)
    (h : p.prisoner_id ≠ 0) :
    (p.TakeAction d l).2.2 = PrisonerClaim.claim_nothing ∧
    (p.TakeAction d l).1.times_turned_off_the_light = p.times_turned_off_the_light ∧
    (p.has_turned_on_the_light = false ∧ l = false →
      (p.TakeAction d l).1.has_turned_on_the_light = true ∧ (p.TakeAction d l).2.1 = true) ∧
    (¬(p.has_turned_on_the_light = false ∧ l = false) →
      p.TakeAction d l = (p, l, PrisonerClaim.claim_nothing)) := by
  simp only [DedicatedCounterPrisoner.TakeAction]
  rw [if_neg h]
  split_ifs <;> simp_all

lemma counterAction_has_mono (p : DedicatedCounterPrisoner) (d : ℕ) (l : Bool)
    (h : p.has_turned_on_the_light = true) :
    (p.TakeAction d l).1.has_turned_on_the_light = true := by
  simp only [DedicatedCounterPrisoner.TakeAction]
  split_ifs <;> simp_all

lemma sum_ind_pos (N : ℕ) : (∑ j ∈ Finset.range N, (if 0 < j then 1 else 0)) = N - 1 := by
  induction N with
  | zero => simp
  | succ m ih =>
    rw [Finset.sum_range_succ, ih]
    rcases Nat.eq_zero_or_pos m with h | h
    · subst h; simp
    · rw [if_pos h]; omega

lemma nSignaled_le (N : ℕ) (s : PrisonState DedicatedCounterPrisoner) :
    nSignaled N s ≤ N - 1 := by
  calc nSignaled N s ≤ ∑ j ∈ Finset.range N, (if 0 < j then 1 else 0) := by
        refine Finset.sum_le_sum fun j _ => ?_
        by_cases h : 0 < j ∧ (s.prisoners j).has_turned_on_the_light = true
        · rw [if_pos h, if_pos h.1]
        · rw [if_neg h]
          split <;> omega
  _ = N - 1 := sum_ind_pos N

/-- Run invariant for the counter protocol: agents keep their identity
and `N`, and the leader's count of light-off events plus the pending
light bit never exceeds the number of non-leaders that have signalled. -/
lemma counterInvariant {N : ℕ} {s : PrisonState DedicatedCounterPrisoner}
    (hs : Reachable DedicatedCounterPrisoner.TakeAction
      (fun i => DedicatedCounterPrisoner.init i N) N s) :
    (∀ i, i < N → (s.prisoners i).prisoner_id = i ∧ (s.prisoners i).n_prisoners = N) ∧
    (s.prisoners 0).times_turned_off_the_light + (if s.light_is_on then 1 else 0)
      ≤ nSignaled N s := by
  induction hs with
  | init =>
    refine ⟨fun i _ => ⟨rfl, rfl⟩, ?_⟩
    simp [Prison.init, DedicatedCounterPrisoner.init, nSignaled]
  | @step s i hi hs ih =>
    obtain ⟨ihp, ihcnt⟩ := ih
    have hprs : (NextDay DedicatedCounterPrisoner.TakeAction i s).2.prisoners
        = updateFn s.prisoners i
            ((s.prisoners i).TakeAction s.day_number s.light_is_on).1 := rfl
    have hlight : (NextDay DedicatedCounterPrisoner.TakeAction i s).2.light_is_on
        = ((s.prisoners i).TakeAction s.day_number s.light_is_on).2.1 := rfl
    have hSig : nSignaled N (NextDay DedicatedCounterPrisoner.TakeAction i s).2
          + (if 0 < i ∧ (s.prisoners i).has_turned_on_the_light = true then 1 else 0)
        = nSignaled N s
          + (if 0 < i ∧ ((s.prisoners i).TakeAction s.day_number s.light_is_on).1.has_turned_on_the_light = true then 1 else 0) := by
      have h := sum_range_updateFn
        (fun j q => if 0 < j ∧ q.has_turned_on_the_light = true then 1 else 0)
        s.prisoners i ((s.prisoners i).TakeAction s.day_number s.light_is_on).1 hi
      simpa [nSignaled, hprs] using h
    refine ⟨?_, ?_⟩
    · intro j hj
      rw [hprs]
      by_cases hji : j = i
      · subst hji
        have hupd : updateFn s.prisoners j ((s.prisoners j).TakeAction s.day_number s.light_is_on).1 j
            = ((s.prisoners j).TakeAction s.day_number s.light_is_on).1 := by
          simp [updateFn]
        rw [hupd]
        obtain ⟨h1, h2⟩ := counterAction_params (s.prisoners j) s.day_number s.light_is_on
        exact ⟨h1.trans (ihp j hj).1, h2.trans (ihp j hj).2⟩
      · have hupd : updateFn s.prisoners i ((s.prisoners i).TakeAction s.day_number s.light_is_on).1 j
            = s.prisoners j := by
          simp [updateFn, hji]
        rw [hupd]
        exact ihp j hj
    · rw [hlight]
      by_cases hi0 : i = 0
      · subst hi0
        have hid : (s.prisoners 0).prisoner_id = 0 := (ihp 0 hi).1
        obtain ⟨hcnt, hhas, hl1, _⟩ :=
          counterAction_leader (s.prisoners 0) s.day_number s.light_is_on hid
        have hupd : (NextDay DedicatedCounterPrisoner.TakeAction 0 s).2.prisoners 0
            = ((s.prisoners 0).TakeAction s.day_number s.light_is_on).1 := by
          rw [hprs]; simp [updateFn]
        rw [hupd, hcnt, hl1]
        have hSig0 : nSignaled N (NextDay DedicatedCounterPrisoner.TakeAction 0 s).2
            = nSignaled N s := by
          simpa using hSig
        rw [hSig0]
        cases hl : s.light_is_on
        · simp only [if_neg Bool.false_ne_true]
          rw [hl] at ihcnt
          simpa using ihcnt
        · rw [hl] at ihcnt
          simp only [if_true] at ihcnt ⊢
          simp
          omega
      · have hpos : 0 < i := Nat.pos_of_ne_zero hi0
        have hid : (s.prisoners i).prisoner_id = i := (ihp i hi).1
        have hidne : (s.prisoners i).prisoner_id ≠ 0 := by rw [hid]; exact hi0
        obtain ⟨_, _, hsig, hnop⟩ :=
          counterAction_nonleader (s.prisoners i) s.day_number s.light_is_on hidne
        have hupd0 : (NextDay DedicatedCounterPrisoner.TakeAction i s).2.prisoners 0
            = s.prisoners 0 := by
          rw [hprs]; simp [updateFn, Ne.symm hi0]
        rw [hupd0]
        by_cases hcase : (s.prisoners i).has_turned_on_the_light = false ∧ s.light_is_on = false
        · obtain ⟨hnew, hlon⟩ := hsig hcase
          rw [hlon]
          rw [hcase.2] at ihcnt
          rw [if_neg (by rw [hcase.1]; simp : ¬(0 < i ∧ (s.prisoners i).has_turned_on_the_light = true)),
            if_pos ⟨hpos, hnew⟩] at hSig
          simp only [if_true]
          simp only [if_neg Bool.false_ne_true] at ihcnt
          omega
        · have heq := hnop hcase
          rw [heq] at hSig ⊢
          simp only [] at hSig ⊢
          omega

/-! ## Run-loop characterisation lemmas -/

lemma iterState_shift {σ : Type} (act : σ → ℕ → Bool → σ × Bool × PrisonerClaim)
    (ids : ℕ → ℕ) (j : ℕ) (s : PrisonState σ) :
    iterState act ids (j + 1) s = iterState act ids j (NextDay act (ids s.day_number) s).2 := rfl

lemma claimAt_shift {σ : Type} (act : σ → ℕ → Bool → σ × Bool × PrisonerClaim)
    (ids : ℕ → ℕ) (j : ℕ) (s : PrisonState σ) :
    claimAt act ids (j + 1) s = claimAt act ids j (NextDay act (ids s.day_number) s).2 := rfl

lemma claimAt_zero {σ : Type} (act : σ → ℕ → Bool → σ × Bool × PrisonerClaim)
    (ids : ℕ → ℕ) (s : PrisonState σ) :
    claimAt act ids 0 s = (NextDay act (ids s.day_number) s).1 := rfl

lemma claim_not_everyone {c : PrisonerClaim}
    (h : c ≠ PrisonerClaim.claim_that_everyone_has_been_in_the_room) :
    c = PrisonerClaim.claim_nothing := by
  cases c
  · rfl
  · exact absurd rfl h

lemma firstClaimAt_shift {σ : Type} (act : σ → ℕ → Bool → σ × Bool × PrisonerClaim)
    (ids : ℕ → ℕ) (s : PrisonState σ)
    (hc : (NextDay act (ids s.day_number) s).1
      ≠ PrisonerClaim.claim_that_everyone_has_been_in_the_room) (j : ℕ) :
    FirstClaimAt act ids s (j + 1)
      ↔ FirstClaimAt act ids (NextDay act (ids s.day_number) s).2 j := by
  constructor
  · rintro ⟨hpre, hcl⟩
    refine ⟨fun m hm => ?_, ?_⟩
    · rw [← claimAt_shift]
      exact hpre (m + 1) (by omega)
    · rw [← claimAt_shift]
      exact hcl
  · rintro ⟨hpre, hcl⟩
    refine ⟨fun m hm => ?_, ?_⟩
    · cases m with
      | zero => rw [claimAt_zero]; exact claim_not_everyone hc
      | succ m' => rw [claimAt_shift]; exact hpre m' (by omega)
    · rw [claimAt_shift]
      exact hcl

lemma firstClaimAt_of_claim {σ : Type} (act : σ → ℕ → Bool → σ × Bool × PrisonerClaim)
    (ids : ℕ → ℕ) (s : PrisonState σ)
    (hc : (NextDay act (ids s.day_number) s).1
      = PrisonerClaim.claim_that_everyone_has_been_in_the_room) (j : ℕ) :
    FirstClaimAt act ids s j ↔ j = 0 := by
  constructor
  · rintro ⟨hpre, _⟩
    by_contra hj
    have h0 := hpre 0 (by omega)
    rw [claimAt_zero, hc] at h0
    exact PrisonerClaim.noConfusion h0
  · rintro rfl
    exact ⟨fun m hm => absurd hm (Nat.not_lt_zero m), by rw [claimAt_zero]; exact hc⟩

/-- C2: characterisation of `Prison::Run` (any prisoner type, any id
oracle).  Within any fuel bound, the loop keeps stepping while claims
are `claim_nothing`; on the first everyone-has-been-in-the-room claim it
either throws `FalsePrisonerClaimException` (exactly when some visit
indicator is still false) or returns the already-incremented day
counter (exactly when all are true); there is no other termination
condition — without a claim the loop never stops. -/
theorem runAux_characterisation {σ : Type} (N : ℕ)
    (act : σ → ℕ → Bool → σ × Bool × PrisonerClaim) (ids : ℕ → ℕ) :
    ∀ (fuel : ℕ) (s : PrisonState σ),
      (RunAux N act ids fuel s = none ↔
        ∀ j, j < fuel → claimAt act ids j s = PrisonerClaim.claim_nothing) ∧
      (RunAux N act ids fuel s = some RunResult.false_claim ↔
        ∃ j, j < fuel ∧ FirstClaimAt act ids s j ∧
          HaveAllPrisonersBeenInTheRoom N (iterState act ids (j + 1) s) = false) ∧
      (∀ d, RunAux N act ids fuel s = some (RunResult.success d) ↔
        ∃ j, j < fuel ∧ FirstClaimAt act ids s j ∧
          HaveAllPrisonersBeenInTheRoom N (iterState act ids (j + 1) s) = true ∧
          d = (iterState act ids (j + 1) s).day_number) := by
  intro fuel
  induction fuel with
  | zero =>
    intro s
    refine ⟨by simp [RunAux], by simp [RunAux], fun d => by simp [RunAux]⟩
  | succ m ih =>
    intro s
    by_cases hc : (NextDay act (ids s.day_number) s).1
        = PrisonerClaim.claim_that_everyone_has_been_in_the_room
    · have hrun : RunAux N act ids (m + 1) s
          = if HaveAllPrisonersBeenInTheRoom N (NextDay act (ids s.day_number) s).2
            then some (RunResult.success (NextDay act (ids s.day_number) s).2.day_number)
            else some RunResult.false_claim := by
        simp only [RunAux]
        rw [if_pos hc]
      have hone : iterState act ids 1 s = (NextDay act (ids s.day_number) s).2 := rfl
      refine ⟨?_, ?_, ?_⟩
      · rw [hrun]
        constructor
        · intro h
          exfalso
          split at h <;> exact Option.noConfusion h
        · intro h
          exfalso
          have h0 := h 0 (Nat.succ_pos m)
          rw [claimAt_zero, hc] at h0
          exact PrisonerClaim.noConfusion h0
      · rw [hrun]
        constructor
        · intro h
          refine ⟨0, Nat.succ_pos m, (firstClaimAt_of_claim act ids s hc 0).mpr rfl, ?_⟩
          split at h
          · simp at h
          · rename_i hall
            rw [hone]
            exact Bool.not_eq_true _ ▸ (by simpa using hall)
        · rintro ⟨j, _, hfirst, hall⟩
          have hj0 : j = 0 := (firstClaimAt_of_claim act ids s hc j).mp hfirst
          subst hj0
          rw [hone] at hall
          rw [hall]
          simp
      · intro d
        rw [hrun]
        constructor
        · intro h
          split at h
          · rename_i hall
            refine ⟨0, Nat.succ_pos m, (firstClaimAt_of_claim act ids s hc 0).mpr rfl, ?_, ?_⟩
            · rw [hone]; exact hall
            · rw [hone]; exact (RunResult.success.inj (Option.some.inj h)).symm
          · simp at h
        · rintro ⟨j, _, hfirst, hall, hd⟩
          have hj0 : j = 0 := (firstClaimAt_of_claim act ids s hc j).mp hfirst
          subst hj0
          rw [hone] at hall hd
          rw [if_pos hall, hd]
    · have hrun : RunAux N act ids (m + 1) s
          = RunAux N act ids m (NextDay act (ids s.day_number) s).2 := by
        simp only [RunAux]
        rw [if_neg hc]
      obtain ⟨ihn, ihf, ihs⟩ := ih (NextDay act (ids s.day_number) s).2
      refine ⟨?_, ?_, ?_⟩
      · rw [hrun, ihn]
        constructor
        · intro h j hj
          cases j with
          | zero => rw [claimAt_zero]; exact claim_not_everyone hc
          | succ j' => rw [claimAt_shift]; exact h j' (by omega)
        · intro h j hj
          rw [← claimAt_shift]
          exact h (j + 1) (by omega)
      · rw [hrun, ihf]
        constructor
        · rintro ⟨j, hj, hfirst, hall⟩
          exact ⟨j + 1, by omega, (firstClaimAt_shift act ids s hc j).mpr hfirst,
            by rw [iterState_shift]; exact hall⟩
        · rintro ⟨j, hj, hfirst, hall⟩
          cases j with
          | zero =>
            exact absurd hfirst.2 (by rw [claimAt_zero]; exact hc)
          | succ j' =>
            exact ⟨j', by omega, (firstClaimAt_shift act ids s hc j').mp hfirst,
              by rw [← iterState_shift]; exact hall⟩
      · intro d
        rw [hrun, ihs d]
        constructor
        · rintro ⟨j, hj, hfirst, hall, hd⟩
          exact ⟨j + 1, by omega, (firstClaimAt_shift act ids s hc j).mpr hfirst,
            by rw [iterState_shift]; exact hall, by rw [iterState_shift]; exact hd⟩
        · rintro ⟨j, hj, hfirst, hall, hd⟩
          cases j with
          | zero =>
            exact absurd hfirst.2 (by rw [claimAt_zero]; exact hc)
          | succ j' =>
            exact ⟨j', by omega, (firstClaimAt_shift act ids s hc j').mp hfirst,
              by rw [← iterState_shift]; exact hall, by rw [← iterState_shift]; exact hd⟩

/-! ## Claim theorems -/

/-- C2 witness: a concrete run — one prisoner, counter protocol — where
the loop returns success with day count 1 after the first visit. -/
theorem runAux_characterisation_witness :
    RunAux 1 DedicatedCounterPrisoner.TakeAction (fun _ => 0) 5 (counterInit 1)
      = some (RunResult.success 1) :=
  ((runAux_characterisation 1 DedicatedCounterPrisoner.TakeAction (fun _ => 0) 5
      (counterInit 1)).2.2 1).mpr
    ⟨0, by decide, ⟨fun m hm => absurd hm (Nat.not_lt_zero m), by decide⟩, by decide, by decide⟩

/-- C3 (code bug): the claim that for every `N ≥ 1` every division and
modulo executed by `GetStageIndex` during a run has a nonzero divisor
fails at `N = 1`.  On the very first visit (day 0) the light is off, so
`MaybeTurnOffLight` is a no-op, and `MaybeTurnOnLight` evaluates
`GetStageIndex(0 + 1)`; with `n_stages = ceil(log2 1) = 0` the
subsequent-cycles branch computes `tail / 3 % 0` — a modulo by zero
(undefined behaviour in the C++ source), which `GetStageIndexChecked`
reports. -/
theorem stage_divisor_zero_at_one_prisoner :
    (TokenPrisoner.init 0 1).MaybeTurnOffLight 0 false = (TokenPrisoner.init 0 1, false) ∧
    GetClosestNotSmallerPowerOf2 1 = 0 ∧
    GetStageIndexChecked 1 (0 + 1) = none := by
  decide

/-- C4 (code bug): for `N = 1` the single agent is indeed constructed
with one token, but its very first visit does not produce the
everyone-has-been-in-the-room claim: `TakeAction` first reaches the
modulo-by-zero of `GetStageIndex(1)` (undefined behaviour in C++,
reported by `GetStageIndexChecked`), and even under total semantics the
agent offers its only token on the light and emits `claim_nothing`, so
`Run` does not succeed on day 0 as claimed. -/
theorem single_prisoner_first_visit_fails :
    (TokenPrisoner.init 0 1).n_tokens = 1 ∧
    GetStageIndexChecked 1 (0 + 1) = none ∧
    (NextDay TokenPrisoner.TakeAction 0 (tokenInit 1)).1 = PrisonerClaim.claim_nothing ∧
    (NextDay TokenPrisoner.TakeAction 0 (tokenInit 1)).2.light_is_on = true := by
  decide

/-- C5: per-visit behaviour of `DedicatedCounterPrisoner::TakeAction`.
The leader (id 0) turns the signal off whenever it is on, incrementing
its off-count, and claims exactly when the (possibly just incremented)
off-count equals `n_prisoners - 1`; a non-leader that has never
signalled and finds the signal off turns it on and records it, and a
non-leader never claims. -/
theorem counter_take_action_behaviour (p : DedicatedCounterPrisoner) (day : ℕ)
    (light : Bool) (hN : 1 ≤ p.n_prisoners) :
    (p.prisoner_id = 0 →
      (p.TakeAction day light).2.1 = false ∧
      (p.TakeAction day light).1.times_turned_off_the_light
        = p.times_turned_off_the_light + (if light then 1 else 0) ∧
      ((p.TakeAction day light).2.2 = PrisonerClaim.claim_that_everyone_has_been_in_the_room
        ↔ p.times_turned_off_the_light + (if light then 1 else 0) = p.n_prisoners - 1)) ∧
    (p.prisoner_id ≠ 0 →
      (p.TakeAction day light).2.2 = PrisonerClaim.claim_nothing ∧
      (p.has_turned_on_the_light = false ∧ light = false →
        (p.TakeAction day light).2.1 = true ∧
        (p.TakeAction day light).1.has_turned_on_the_light = true) ∧
      (¬(p.has_turned_on_the_light = false ∧ light = false) →
        p.TakeAction day light = (p, light, PrisonerClaim.claim_nothing))) := by
  constructor
  · intro h0
    obtain ⟨hcnt, _, hl1, hclaim⟩ := counterAction_leader p day light h0
    refine ⟨hl1, hcnt, hclaim.trans ?_⟩
    cases light <;> simp <;> omega
  · intro hne
    obtain ⟨hcl, _, hsig, hnop⟩ := counterAction_nonleader p day light hne
    exact ⟨hcl, fun hc => ⟨(hsig hc).2, (hsig hc).1⟩, hnop⟩

/-- C5 witness: with two prisoners, the leader visited while the light
is on reaches off-count `1 = n_prisoners - 1` and claims. -/
theorem counter_take_action_behaviour_witness :
    ((DedicatedCounterPrisoner.init 0 2).TakeAction 0 true).2.2
      = PrisonerClaim.claim_that_everyone_has_been_in_the_room := by
  have h := (counter_take_action_behaviour (DedicatedCounterPrisoner.init 0 2) 0 true
    (by decide)).1 rfl
  exact h.2.2.mpr (by decide)

/-- C7: the token protocol's stage index is the pure function of the
day number and `N` given in the spec — `day / (7N)` during the first
cycle (`day < k·7N`) and `((day - k·7N) / (3N)) mod k` afterwards — and
`IsLastDayOfTheStage day` holds iff the stage changes from `day` to
`day + 1`. -/
theorem stage_schedule_correct (N day : ℕ) (_hN : 2 ≤ N) :
    GetStageIndex N day = stageSpec N day ∧
    (IsLastDayOfTheStage N day = true ↔ GetStageIndex N day ≠ GetStageIndex N (day + 1)) := by
  exact ⟨stage_eq_spec N day, by rw [IsLastDayOfTheStage, bne_iff_ne]⟩

/-- C7 witness: a concrete instantiation (`N = 3`, day 50, in the
subsequent-cycles regime). -/
theorem stage_schedule_correct_witness :
    2 ≤ 3 ∧
    (GetStageIndex 3 50 = stageSpec 3 50 ∧
      (IsLastDayOfTheStage 3 50 = true ↔ GetStageIndex 3 50 ≠ GetStageIndex 3 (50 + 1))) :=
  ⟨by decide, stage_schedule_correct 3 50 (by decide)⟩

/-- C9: one scheduler step (`Prison::NextDay`), with the drawn id made
explicit: it marks the drawn agent's visit indicator (so the agent's own
visit is already recorded when its claim is adjudicated), leaves the
other indicators alone, hands the protocol the current day number and
light, stores the returned prisoner state and light, increments the day
counter by exactly one, and returns the claim; the counter starts at 0
at construction. -/
theorem next_day_step_contract {σ : Type}
    (act : σ → ℕ → Bool → σ × Bool × PrisonerClaim) (mk : ℕ → σ) (i : ℕ)
    (s : PrisonState σ) :
    (NextDay act i s).2.day_number = s.day_number + 1 ∧
    (NextDay act i s).2.prisoners_have_been_in_the_room_indicators i = true ∧
    (∀ j, j ≠ i → (NextDay act i s).2.prisoners_have_been_in_the_room_indicators j
      = s.prisoners_have_been_in_the_room_indicators j) ∧
    (NextDay act i s).1 = (act (s.prisoners i) s.day_number s.light_is_on).2.2 ∧
    (NextDay act i s).2.light_is_on = (act (s.prisoners i) s.day_number s.light_is_on).2.1 ∧
    (NextDay act i s).2.prisoners i = (act (s.prisoners i) s.day_number s.light_is_on).1 ∧
    (Prison.init mk).day_number = 0 := by
  refine ⟨rfl, ?_, ?_, rfl, rfl, ?_, rfl⟩
  · simp [NextDay, updateFn]
  · intro j hj
    simp [NextDay, updateFn, hj]
  · simp [NextDay, updateFn]

/-- C9 witness: a concrete step (two counter prisoners, drawn id 0):
the day counter moves 0 → 1 and the other agent's indicator stays
false. -/
theorem next_day_step_contract_witness :
    (NextDay DedicatedCounterPrisoner.TakeAction 0 (counterInit 2)).2.day_number = 1 ∧
    (NextDay DedicatedCounterPrisoner.TakeAction 0
      (counterInit 2)).2.prisoners_have_been_in_the_room_indicators 1 = false := by
  have h := next_day_step_contract DedicatedCounterPrisoner.TakeAction
    (fun i => DedicatedCounterPrisoner.init i 2) 0 (counterInit 2)
  exact ⟨h.1, (h.2.2.1 1 (by decide)).trans (by decide)⟩

/-- C1 counterexample: for `N = 2` (both agents start with one token,
`2^k = 2`), the first visit (agent 0, day 0) offers a token on the
light, so the agents' token sum drops from 2 to 1: the plain sum over
agents is not the same after every `TakeAction` call as at
construction. -/
theorem token_sum_changes_counterexample :
    tokensSum 2 (NextDay TokenPrisoner.TakeAction 0 (tokenInit 2)).2 = 1 ∧
    tokensSum 2 (tokenInit 2) = 2 ∧
    2 ^ GetClosestNotSmallerPowerOf2 2 = 2 := by
  decide

/-- C1 (amended): for `N ≥ 2`, what is invariant across every visit of
a token run is the light-adjusted token sum — all agents' `n_tokens`
plus, when the light is on, the weight `2^stage(current day)` of the
token offered on it; it equals its construction value `2^k`,
`k = ceil(log2 N)`, in every reachable state. -/
theorem token_mass_conserved (N : ℕ) (hN : 2 ≤ N) {s : PrisonState TokenPrisoner}
    (hs : Reachable TokenPrisoner.TakeAction (fun i => TokenPrisoner.init i N) N s) :
    lightAdjustedTokensSum N s = lightAdjustedTokensSum N (tokenInit N) ∧
    lightAdjustedTokensSum N s = 2 ^ GetClosestNotSmallerPowerOf2 N := by
  have h := (tokenMassInvariant (by omega) hs).2
  have hinit : lightAdjustedTokensSum N (tokenInit N)
      = 2 ^ GetClosestNotSmallerPowerOf2 N := by
    rw [lightAdjustedTokensSum]
    have : (tokenInit N).light_is_on = false := rfl
    rw [this, if_neg Bool.false_ne_true, Nat.add_zero]
    exact tokensSum_init N (by omega)
  exact ⟨h.trans hinit.symm, h⟩

/-- C1 witness: at `N = 2` after the first visit the adjusted sum is
still `2 = 2^1` (one token with agent 1, one on the light). -/
theorem token_mass_conserved_witness :
    lightAdjustedTokensSum 2 (NextDay TokenPrisoner.TakeAction 0 (tokenInit 2)).2
      = 2 ^ GetClosestNotSmallerPowerOf2 2 :=
  (token_mass_conserved 2 (by decide) (Reachable.step 0 (by decide) Reachable.init)).2

/-- C10: for `N ≥ 2`, in every reachable state of a token run, if the
light is off the agents' token sum is exactly `2^k`, and if the light is
on the sum falls short of `2^k` by exactly the weight
`2^stage(current day)` of the token offered on the light — in
particular it is strictly below `2^k`. -/
theorem light_partitions_token_mass (N : ℕ) (hN : 2 ≤ N)
    {s : PrisonState TokenPrisoner}
    (hs : Reachable TokenPrisoner.TakeAction (fun i => TokenPrisoner.init i N) N s) :
    (s.light_is_on = false → tokensSum N s = 2 ^ GetClosestNotSmallerPowerOf2 N) ∧
    (s.light_is_on = true →
      tokensSum N s + 2 ^ GetStageIndex N s.day_number
          = 2 ^ GetClosestNotSmallerPowerOf2 N ∧
      tokensSum N s < 2 ^ GetClosestNotSmallerPowerOf2 N) := by
  have h := (tokenMassInvariant (by omega) hs).2
  rw [lightAdjustedTokensSum] at h
  constructor
  · intro hl
    rw [hl, if_neg Bool.false_ne_true, Nat.add_zero] at h
    exact h
  · intro hl
    rw [hl, if_pos rfl] at h
    refine ⟨h, ?_⟩
    have hpos : 0 < 2 ^ GetStageIndex N s.day_number := Nat.pos_pow_of_pos _ (by norm_num)
    omega

/-- C10 witness: at `N = 2` after the first visit the light is on and
the agents hold `1 < 2 = 2^1` tokens. -/
theorem light_partitions_token_mass_witness :
    tokensSum 2 (NextDay TokenPrisoner.TakeAction 0 (tokenInit 2)).2
      < 2 ^ GetClosestNotSmallerPowerOf2 2 :=
  ((light_partitions_token_mass 2 (by decide)
      (Reachable.step 0 (by decide) Reachable.init)).2 (by decide)).2

/-- C8: in every reachable state of a counter-protocol run with
`N ≥ 1` agents, the leader's count of light-off events never exceeds
`n_agents - 1` (and hence is at most `n_agents - 1` when a claim is
adjudicated), and a set one-shot signal flag is never reset: any
further scheduler step keeps `has_turned_on_the_light` true, so the
flag goes false → true at most once over a run. -/
theorem counter_run_invariants (N : ℕ) (_hN : 1 ≤ N)
    {s : PrisonState DedicatedCounterPrisoner}
    (hs : Reachable DedicatedCounterPrisoner.TakeAction
      (fun i => DedicatedCounterPrisoner.init i N) N s) :
    (s.prisoners 0).times_turned_off_the_light ≤ N - 1 ∧
    (∀ i j : ℕ, (s.prisoners i).has_turned_on_the_light = true →
      ((NextDay DedicatedCounterPrisoner.TakeAction j s).2.prisoners i).has_turned_on_the_light
        = true) := by
  obtain ⟨hparams, hcnt⟩ := counterInvariant hs
  constructor
  · have hle := nSignaled_le N s
    omega
  · intro i j hhas
    have hprs : (NextDay DedicatedCounterPrisoner.TakeAction j s).2.prisoners
        = updateFn s.prisoners j
            ((s.prisoners j).TakeAction s.day_number s.light_is_on).1 := rfl
    rw [hprs]
    by_cases hij : i = j
    · subst hij
      have hupd : updateFn s.prisoners i ((s.prisoners i).TakeAction s.day_number s.light_is_on).1 i
          = ((s.prisoners i).TakeAction s.day_number s.light_is_on).1 := by
        simp [updateFn]
      rw [hupd]
      exact counterAction_has_mono (s.prisoners i) s.day_number s.light_is_on hhas
    · have hupd : updateFn s.prisoners j ((s.prisoners j).TakeAction s.day_number s.light_is_on).1 i
          = s.prisoners i := by
        simp [updateFn, hij]
      rw [hupd]
      exact hhas

/-- C8 witness: two counter prisoners after one visit by agent 1 (which
turns the light on): the leader's count is still within `2 - 1`. -/
theorem counter_run_invariants_witness :
    ((NextDay DedicatedCounterPrisoner.TakeAction 1 (counterInit 2)).2.prisoners 0).times_turned_off_the_light
      ≤ 2 - 1 :=
  (counter_run_invariants 2 (by decide) (Reachable.step 1 (by decide) Reachable.init)).1

set_option maxHeartbeats 2000000 in
/-- C6: `TokenPrisoner::TakeAction` performs exactly the spec's
per-visit action, in the spec's order: the turn-off half (absorb at
`rate = 2^stage(day)` when the rate bit is set or the stage is ending),
then the turn-on half (offer at `next_rate = 2^stage(day+1)` when that
bit is set, on the possibly updated state), then the claim emitted iff
the final token count is `2^k`. -/
theorem take_action_refines_spec (p : TokenPrisoner) (day : ℕ) (light : Bool) :
    p.TakeAction day light = takeActionSpec p day light := by
  simp only [TokenPrisoner.TakeAction, TokenPrisoner.MaybeTurnOffLight,
    TokenPrisoner.MaybeTurnOnLight, TokenPrisoner.ShouldClaimThatEveryoneHasBeenInTheRoom,
    takeActionSpec, stage_eq_spec, getClosest_eq_clog, Nat.shiftLeft_eq, Nat.one_mul,
    bne_iff_ne, Bool.or_eq_true, lastDay_eq_spec]
  cases light <;> split_ifs <;> simp_all

end Prisoners
